import Mathlib

/-!
Verification of the delegation-manager repository (OpenGov delegation tools).

The development shallowly embeds the JavaScript sources:
- `governance-cleanup.js` : voting-state reader (`getVotingInfo`), cleanup plan
  builder (`buildCleanupCalls`), chunking (`chunkArray`), and the
  submission loop of `submitBatchViaProxy`;
- `delegate.js` (src/unnamed/part_001) : argument validation, planck
  conversion (binary64 arithmetic modelled exactly over `ℚ`), the
  per-transaction lifecycle callback with its 120000 ms deadline timer,
  and the batch loop that continues past failed batches;
- `check-delegation.js` : the delegation-amount summary fold.

JavaScript `Map` and `Set` objects are modelled as insertion-ordered
association lists / lists, matching their iteration-order semantics.
Promises settle once: a run of status notifications resolves with the first
settling callback outcome and ignores the rest.
-/

namespace DelegationTools

/-! ## Data model: observed voting state (`governance-cleanup.js`, `getVotingInfo`) -/

/-- One active delegation record, as pushed into `delegations`
(`governance-cleanup.js` lines 211-217). Balances are already minor units. -/
structure Delegation where
  trackId : Nat
  target : String
  conviction : String
  balance : Nat
deriving DecidableEq, Repr

/-- One active direct-vote record (`governance-cleanup.js` lines 222-228). -/
structure VoteRec where
  trackId : Nat
  refIndex : Nat
deriving DecidableEq, Repr

/-- One prior-lock record (`governance-cleanup.js` lines 237-244). -/
structure PriorLock where
  trackId : Nat
  unlockBlock : Nat
  amount : Nat
  isExpired : Bool
  blocksRemaining : Nat
deriving DecidableEq, Repr

/-- Classification of a prior lock (`governance-cleanup.js` lines 242-243):
`isExpired: currentBlock >= unlockBlock` and
`blocksRemaining: Math.max(0, unlockBlock - currentBlock)` (truncated `Nat`
subtraction is exactly `max 0` of the integer difference). -/
def mkPriorLock (currentBlock trackId unlockBlock amount : Nat) : PriorLock :=
  { trackId := trackId
    unlockBlock := unlockBlock
    amount := amount
    isExpired := decide (unlockBlock ≤ currentBlock)
    blocksRemaining := unlockBlock - currentBlock }

/-- A raw `convictionVoting.votingFor` storage value for one track, after the
adapter has decoded the variant probes (`isDelegating` / `isCasting`).
For `casting`, only the referendum indices of `votes` and the
`(unlockBlock, amount)` pair of `prior` are consumed by the reader. -/
inductive RawVoting where
  | delegating (target conviction : String) (balance : Nat)
  | casting (votes : List Nat) (prior : Option (Nat × Nat))
deriving DecidableEq, Repr

/-- Accumulated result of the voting-state reader. `lockedTracks` (display-only
class-lock summary) is omitted; `currentBlock` is the single snapshot taken
before any track is classified. -/
structure VotingInfo where
  delegations : List Delegation
  votes : List VoteRec
  priorLocks : List PriorLock
deriving DecidableEq, Repr

/-- One iteration of the `getVotingInfo` entry loop (`governance-cleanup.js`
lines 205-248), pushing records in entry order. A prior lock is recorded only
when `unlockBlock > 0 && amount !== '0'`. -/
def readEntry (currentBlock : Nat) (acc : VotingInfo) (e : Nat × RawVoting) : VotingInfo :=
  match e with
  | (trackId, .delegating target conviction balance) =>
    { acc with delegations :=
        acc.delegations ++ [⟨trackId, target, conviction, balance⟩] }
  | (trackId, .casting votes prior) =>
    let acc1 := { acc with votes := acc.votes ++ votes.map (⟨trackId, ·⟩) }
    match prior with
    | some (unlockBlock, amount) =>
      if 0 < unlockBlock ∧ amount ≠ 0 then
        { acc1 with priorLocks :=
            acc1.priorLocks ++ [mkPriorLock currentBlock trackId unlockBlock amount] }
      else acc1
    | none => acc1

/-- `getVotingInfo` (`governance-cleanup.js` lines 193-263): the current block
height is snapshotted once, before any track is classified. -/
def getVotingInfo (entries : List (Nat × RawVoting)) (currentBlock : Nat) : VotingInfo :=
  entries.foldl (readEntry currentBlock) ⟨[], [], []⟩

/-! ## Cleanup plan builder (`governance-cleanup.js`, `buildCleanupCalls`) -/

/-- A planned operation; the `call` field of the objects pushed by
`buildCleanupCalls` (descriptions are display-only and omitted). -/
inductive Call where
  | undelegate (trackId : Nat)
  | removeVote (trackId refIndex : Nat)
  | unlock (trackId : Nat)
deriving DecidableEq, Repr

/-- Per-track accumulator of `buildCleanupCalls`: the values of the JS
`trackData` map (`{ delegated: false, votes: [] }`). -/
structure TrackData where
  delegated : Bool
  votes : List Nat
deriving DecidableEq, Repr

/-- The JS `trackData` `Map`, as an insertion-ordered association list. -/
abbrev TrackMap := List (Nat × TrackData)

/-- `if (!trackData.has(k)) trackData.set(k, {delegated: false, votes: []})`:
a missing key is appended at the end (JS `Map` iterates in insertion order). -/
def ensureKey (m : TrackMap) (k : Nat) : TrackMap :=
  if m.any (fun p => p.1 = k) then m else m ++ [(k, ⟨false, []⟩)]

/-- In-place update of the value stored at key `k` (position preserved). -/
def mapUpdate (m : TrackMap) (k : Nat) (f : TrackData → TrackData) : TrackMap :=
  m.map (fun p => if p.1 = k then (p.1, f p.2) else p)

/-- `trackData.get(del.trackId).delegated = true`
(`governance-cleanup.js` lines 272-277). -/
def addDelegation (m : TrackMap) (d : Delegation) : TrackMap :=
  mapUpdate (ensureKey m d.trackId) d.trackId (fun t => { t with delegated := true })

/-- `trackData.get(vote.trackId).votes.push(vote.refIndex)`
(`governance-cleanup.js` lines 279-284). -/
def addVote (m : TrackMap) (v : VoteRec) : TrackMap :=
  mapUpdate (ensureKey m v.trackId) v.trackId (fun t => { t with votes := t.votes ++ [v.refIndex] })

/-- One iteration of the `tracksToUnlock` loop (`governance-cleanup.js` lines
309-313): `if (lock.isExpired) tracksToUnlock.add(lock.trackId)` — a JS `Set`
keeps the first occurrence and iterates in insertion order. -/
def unlockInsert (s : List Nat) (l : PriorLock) : List Nat :=
  if l.isExpired then (if l.trackId ∈ s then s else s ++ [l.trackId]) else s

/-- The deduplicated `tracksToUnlock` `Set` (`governance-cleanup.js` lines
308-313): tracks of expired locks, first occurrence kept, insertion order. -/
def tracksToUnlock (priorLocks : List PriorLock) : List Nat :=
  priorLocks.foldl unlockInsert []

/-- `buildCleanupCalls` (`governance-cleanup.js` lines 265-323): unless
`unlockOnly`, first one `undelegate` per delegated track and then every
`removeVote`, both in `trackData` iteration order; then one `unlock` per
deduplicated expired-lock track. No sorting happens anywhere. -/
def buildCleanupCalls (delegations : List Delegation) (votes : List VoteRec)
    (priorLocks : List PriorLock) (unlockOnly : Bool) : List Call :=
  let base : List Call :=
    if unlockOnly then []
    else
      let td := votes.foldl addVote (delegations.foldl addDelegation [])
      td.filterMap (fun p => if p.2.delegated then some (Call.undelegate p.1) else none)
        ++ td.flatMap (fun p => p.2.votes.map (.removeVote p.1))
  base ++ (tracksToUnlock priorLocks).map .unlock

/-- Strict lexicographic order on vote records: by track ID, then by
referendum index. A chain-returned vote list sorted this way is the premise
under which the cleanup plan's `RemoveVote` group comes out sorted. -/
def voteLexLT (a b : VoteRec) : Prop :=
  a.trackId < b.trackId ∨ (a.trackId = b.trackId ∧ a.refIndex < b.refIndex)

instance : DecidableRel voteLexLT := fun _ _ =>
  inferInstanceAs (Decidable (_ ∨ _))

/-- Specification of the `trackData` map produced by folding `addVote` over a
track-grouped vote list starting from keys disjoint from the votes' tracks:
one entry per run of equal tracks, `delegated = false`, referendum indices in
arrival order. -/
def groupVotes : List VoteRec → TrackMap
  | [] => []
  | v :: vs =>
    (v.trackId,
      ⟨false, v.refIndex :: (vs.takeWhile (fun w => w.trackId == v.trackId)).map
        (fun w => w.refIndex)⟩)
      :: groupVotes (vs.dropWhile (fun w => w.trackId == v.trackId))
termination_by vs => vs.length
decreasing_by
  exact Nat.lt_succ_of_le ((List.dropWhile_sublist _).length_le)

/-! ## Chunking (`governance-cleanup.js`, `chunkArray`; same loop inline in
`delegate.js` lines 283-287) -/

/-- Loop body of `chunkArray`: each iteration slices off the next `size`
elements. `fuel` bounds the number of iterations so the recursion is
structural; `chunkArray` supplies `array.length`, which suffices because every
iteration consumes at least one element when `0 < size`. -/
def chunkArrayGo : Nat → List α → Nat → List (List α)
  | _, [], _ => []
  | 0, _ :: _, _ => []
  | fuel + 1, a :: l, size => (a :: l).take size :: chunkArrayGo fuel ((a :: l).drop size) size

/-- `chunkArray(array, size)`: `for (i = 0; i < array.length; i += size)
chunks.push(array.slice(i, i + size))`. The JS loop never terminates for
`size = 0`; that case (excluded by every call site, which passes the network
constant 4) is mapped to `[]`. -/
def chunkArray (array : List α) (size : Nat) : List (List α) :=
  if size = 0 then [] else chunkArrayGo array.length array size

/-! ## Binary64 arithmetic (`delegate.js` planck conversion)

`delegate.js` computes `parseFloat(args[3])` (line 122) and
`BigInt(Math.floor(balanceAmount * (10 ** network.decimals)))` (line 157):
every step of the product runs in IEEE-754 binary64. The rounding of an exact
rational to the nearest binary64 value (round-to-nearest, ties-to-even) is
modelled exactly over `ℚ`; the magnitudes involved are far inside the normal
range, so overflow/subnormal behaviour needs no modelling. -/

/-- Round a rational to the nearest integer, ties to even. -/
def roundHalfEven (q : ℚ) : ℤ :=
  let f := ⌊q⌋
  if q - f < 1 / 2 then f
  else if 1 / 2 < q - f then f + 1
  else if f % 2 = 0 then f else f + 1

/-- Nearest binary64 value of a positive rational: the significand grid in the
binade of `q` has spacing `2 ^ (Int.log 2 q - 52)`. -/
def rndPos (q : ℚ) : ℚ :=
  let scale : ℚ := 2 ^ (52 - Int.log 2 q)
  (roundHalfEven (q * scale) : ℚ) / scale

/-- Nearest binary64 value of a rational (sign-symmetric). -/
def rnd (q : ℚ) : ℚ :=
  if 0 < q then rndPos q else if q < 0 then -rndPos (-q) else 0

/-- `BigInt(Math.floor(balanceAmount * (10 ** network.decimals)))`
(`delegate.js` line 157): `balanceAmount` is the double `parseFloat` produced,
`10 ** decimals` is a double power, the product is a double multiplication,
`Math.floor` is exact on doubles and `BigInt` is exact on integers. -/
def balancePlanck (amount : ℚ) (decimals : Nat) : ℤ :=
  ⌊rnd (rnd amount * rnd ((10 : ℚ) ^ decimals))⌋

/-! ## Delegate-script argument handling (`delegate.js` lines 111-157) -/

/-- The per-network constants consumed by the embedded fragments. -/
structure Network where
  decimals : Nat
  maxTracksPerBatch : Nat
deriving DecidableEq, Repr

/-- The `NETWORKS` table of `delegate.js` (lines 20-39), restricted to the
fields the embedded code reads. -/
def NETWORKS (name : String) : Option Network :=
  if name = "kusama" then some ⟨12, 4⟩
  else if name = "polkadot" then some ⟨10, 4⟩
  else none

/-- `ALL_TRACKS` (`delegate.js` line 42). -/
def ALL_TRACKS : List Nat := [0, 1, 2, 10, 11, 12, 13, 14, 15, 20, 21, 30, 31, 32, 33, 34]

/-- The keys of `CONVICTION_MULTIPLIERS` (`delegate.js` lines 64-72). -/
def CONVICTION_NAMES : List String :=
  ["None", "Locked1x", "Locked2x", "Locked3x", "Locked4x", "Locked5x", "Locked6x"]

/-- Result of the argument checks `delegate.js` performs before touching the
chain: bad network name (line 131) and bad conviction (line 149) exit the
process; everything else proceeds with the track list and planck balance
unchecked — there is no duplicate-track or amount validation in the source. -/
inductive DelegatePreflight where
  | invalidNetwork
  | invalidConviction
  | proceed (tracks : List Nat) (conviction : String) (planck : ℤ)
deriving DecidableEq, Repr

/-- The pre-chain portion of `delegate.js main` (lines 111-157), in source
order: network lookup, track-flag collection (default `ALL_TRACKS`),
conviction check, planck conversion. -/
def delegatePreflight (networkName : String) (trackArgs : List Nat)
    (conviction : String) (amount : ℚ) : DelegatePreflight :=
  match NETWORKS networkName with
  | none => .invalidNetwork
  | some net =>
    let tracks := if trackArgs = [] then ALL_TRACKS else trackArgs
    if conviction ∉ CONVICTION_NAMES then .invalidConviction
    else .proceed tracks conviction (balancePlanck amount net.decimals)

/-- One planned delegate call (`delegate.js` lines 235-239):
`api.tx.convictionVoting.delegate(trackId, delegateTo, conviction, balancePlanck)`. -/
structure DelegateCall where
  trackId : Nat
  target : String
  conviction : String
  balance : ℤ
deriving DecidableEq, Repr

/-- `calls = tracks.map(trackId => ...)` (`delegate.js` lines 235-239). -/
def buildDelegateCalls (tracks : List Nat) (delegateTo conviction : String)
    (planck : ℤ) : List DelegateCall :=
  tracks.map (fun t => ⟨t, delegateTo, conviction, planck⟩)

/-! ## Transaction lifecycle monitor

`delegate.js` lines 298-369 drive one submission: a 120000 ms timer is armed
before `signAndSend`, and the status callback settles the enclosing promise.
A promise settles exactly once, so a run over a time-ordered notification list
resolves with the first settling outcome; notifications at or after the
deadline are preempted by the fired timer (which also unsubscribes). -/

/-- The `status.isX` probes the callbacks test. -/
inductive TxStatus where
  | ready
  | inBlock
  | finalized
  | dropped
  | invalid
  | usurped
deriving DecidableEq, Repr

/-- A decoded `dispatchError`: `isModule` errors decode through
`api.registry.findMetaError` into `(section, name, docs)`; anything else is
reported via `toString()`. -/
inductive DispatchErr where
  | moduleErr (sectionName errName docs : String)
  | otherErr (msg : String)
deriving DecidableEq, Repr

/-- One status-callback invocation. In polkadot-js the `dispatchError` field
is derived from the `system.ExtrinsicFailed` event of the block the extrinsic
landed in, so it is populated (with the same error) on the `InBlock`
notification and on the `Finalized` notification for that block. -/
structure TxNote where
  status : TxStatus
  dispatchError : Option DispatchErr
deriving DecidableEq, Repr

/-- Terminal resolution of one submission. `dispatchFailed` carries the
decoded `(section, name, docs)` triple of the rejection message
`` `${decoded.section}.${decoded.name}: ${decoded.docs.join(' ')}` ``. -/
inductive TxOutcome where
  | finalizedOk
  | dispatchFailed (sectionName errName docs : String)
  | failedOther (msg : String)
  | droppedTx
  | invalidTx
  | usurpedTx
  | timedOut
deriving DecidableEq, Repr

/-- `TIMEOUT_MS = 120000` (`delegate.js` line 299): 120 units of 1000 ms. -/
def TIMEOUT_MS : Nat := 120000

/-- One invocation of the `delegate.js` status callback (lines 310-364) on a
still-pending promise: `dispatchError` is checked first (rejecting with the
decoded module triple or `toString()`), then `Dropped`/`Invalid`/`Usurped`
reject, `InBlock` only logs, and `Finalized` resolves. -/
def delegateStep (n : TxNote) : Option TxOutcome :=
  match n.dispatchError with
  | some (.moduleErr s e d) => some (.dispatchFailed s e d)
  | some (.otherErr m) => some (.failedOther m)
  | none =>
    match n.status with
    | .dropped => some .droppedTx
    | .invalid => some .invalidTx
    | .usurped => some .usurpedTx
    | .inBlock => none
    | .finalized => some .finalizedOk
    | .ready => none

/-- Resolution of one `delegate.js` submission, given the notifications in
arrival order with their arrival times (ms after submission). The timer fired
at `deadline` preempts any notification arriving at or after it; if no
notification settles the promise, the timer resolves it `timedOut`. -/
def runDelegateMonitor (deadline : Nat) : List (Nat × TxNote) → TxOutcome
  | [] => .timedOut
  | (t, n) :: rest =>
    if deadline ≤ t then .timedOut
    else
      match delegateStep n with
      | some o => o
      | none => runDelegateMonitor deadline rest

/-- One invocation of the `governance-cleanup.js` status callback
(`submitBatchViaProxy`, lines 359-377) on a still-pending promise: only a
`Finalized` notification settles anything — `dispatchError` is inspected
there and nowhere else, and there is no timer at all. -/
def cleanupStep (n : TxNote) : Option TxOutcome :=
  match n.status with
  | .finalized =>
    match n.dispatchError with
    | some (.moduleErr s e d) => some (.dispatchFailed s e d)
    | some (.otherErr m) => some (.failedOther m)
    | none => some .finalizedOk
  | _ => none

/-- Resolution of one `governance-cleanup.js` submission over its notification
list: `none` means the promise never settles (the script awaits forever). -/
def runCleanupMonitor : List TxNote → Option TxOutcome
  | [] => none
  | n :: rest =>
    match cleanupStep n with
    | some o => some o
    | none => runCleanupMonitor rest

/-! ## Batch scheduling loops -/

/-- The `delegate.js` batch loop (lines 291-380): each batch's awaited outcome
is caught (`catch { console.error(...); /* Continue with next batch */ }`), so
every batch is submitted and its outcome recorded; the loop never rethrows.
Returns (recorded outcomes, whether the loop escaped by a thrown error). -/
def delegateBatchLoop : List TxOutcome → List TxOutcome × Bool
  | [] => ([], false)
  | o :: rest =>
    let r := delegateBatchLoop rest
    (o :: r.1, r.2)

/-- `delegate.js` ends with `main().catch(console.error)` (line 400): an error
is printed, never rethrown, so the process exit code is 0 either way. -/
def delegateExitCode (_threw : Bool) : Nat := 0

/-- The `governance-cleanup.js` batch loop (lines 339-388): a rejected batch
promise is caught, logged and rethrown (`throw error`, line 381), so the
remaining batches are never submitted. -/
def cleanupBatchLoop : List TxOutcome → List TxOutcome × Bool
  | [] => ([], false)
  | o :: rest =>
    if o = .finalizedOk then
      let r := cleanupBatchLoop rest
      (o :: r.1, r.2)
    else ([o], true)

/-- `governance-cleanup.js` ends with `main().catch(... process.exit(1))`
(lines 567-570). -/
def cleanupExitCode (threw : Bool) : Nat := if threw then 1 else 0

/-! ## Delegation status summary (`check-delegation.js` lines 77-98, 155-157) -/

/-- `totalDelegated = balance > totalDelegated ? balance : totalDelegated`
(`check-delegation.js` line 90), folded over the delegating entries in order:
the reported "Delegation amount" is a running maximum, not a sum. -/
def totalDelegated (balances : List Nat) : Nat :=
  balances.foldl (fun acc b => if acc < b then b else acc) 0

/-! ## Helper lemmas: chunking -/

theorem chunkArrayGo_flatten : ∀ (fuel : Nat) (l : List α) (k : Nat), 0 < k →
    l.length ≤ fuel → (chunkArrayGo fuel l k).flatten = l
  | _, [], _, _, _ => by simp [chunkArrayGo]
  | 0, _ :: _, _, _, hf => by simp at hf
  | fuel + 1, a :: l, k, hk, hf => by
    rw [chunkArrayGo]
    have ih := chunkArrayGo_flatten fuel ((a :: l).drop k) k hk
      (by simp only [List.length_drop, List.length_cons]; simp only [List.length_cons] at hf; omega)
    simp only [List.flatten_cons, ih, List.take_append_drop]

theorem chunkArrayGo_mem : ∀ (fuel : Nat) (l : List α) (k : Nat), 0 < k →
    l.length ≤ fuel → ∀ c ∈ chunkArrayGo fuel l k, c ≠ [] ∧ c.length ≤ k
  | _, [], _, _, _ => by simp [chunkArrayGo]
  | 0, _ :: _, _, _, hf => by simp at hf
  | fuel + 1, a :: l, k, hk, hf => by
    rw [chunkArrayGo]
    intro c hc
    rcases List.mem_cons.mp hc with h | h
    · subst h
      refine ⟨by simp [List.take_eq_nil_iff]; omega, by simp⟩
    · exact chunkArrayGo_mem fuel ((a :: l).drop k) k hk
        (by simp only [List.length_drop, List.length_cons]; simp only [List.length_cons] at hf; omega) c h

theorem chunkArrayGo_length : ∀ (fuel : Nat) (l : List α) (k : Nat), 0 < k →
    l.length ≤ fuel → (chunkArrayGo fuel l k).length = (l.length + k - 1) / k
  | _, [], k, hk, _ => by
    rw [chunkArrayGo]
    simp [Nat.div_eq_of_lt (by omega : k - 1 < k)]
  | 0, _ :: _, _, _, hf => by simp at hf
  | fuel + 1, a :: l, k, hk, hf => by
    rw [chunkArrayGo]
    have ih := chunkArrayGo_length fuel ((a :: l).drop k) k hk
      (by simp only [List.length_drop, List.length_cons]; simp only [List.length_cons] at hf; omega)
    rw [List.length_cons, ih, List.length_drop, List.length_cons,
      show l.length + 1 + k - 1 = l.length + k by omega, Nat.add_div_right _ hk]
    rcases Nat.lt_or_ge l.length k with h | h
    · rw [show l.length + 1 - k = 0 by omega, Nat.zero_add,
        Nat.div_eq_of_lt (by omega), Nat.div_eq_of_lt (by omega)]
    · rw [show l.length + 1 - k + k - 1 = l.length by omega]

theorem chunkArray_flatten (l : List α) (k : Nat) (hk : 0 < k) :
    (chunkArray l k).flatten = l := by
  rw [chunkArray, if_neg (by omega)]
  exact chunkArrayGo_flatten l.length l k hk le_rfl

theorem chunkArray_mem (l : List α) (k : Nat) (hk : 0 < k) :
    ∀ c ∈ chunkArray l k, c ≠ [] ∧ c.length ≤ k := by
  rw [chunkArray, if_neg (by omega)]
  exact chunkArrayGo_mem l.length l k hk le_rfl

theorem chunkArray_length (l : List α) (k : Nat) (hk : 0 < k) :
    (chunkArray l k).length = (l.length + k - 1) / k := by
  rw [chunkArray, if_neg (by omega)]
  exact chunkArrayGo_length l.length l k hk le_rfl

/-! ## Helper lemmas: running-maximum fold -/

theorem maxFold_le_acc : ∀ (l : List Nat) (acc : Nat),
    acc ≤ l.foldl (fun a b => if a < b then b else a) acc
  | [], _ => le_refl _
  | b :: l, acc => by
    refine le_trans ?_ (maxFold_le_acc l (if acc < b then b else acc))
    split <;> omega

theorem maxFold_le_mem : ∀ (l : List Nat) (acc : Nat),
    ∀ b ∈ l, b ≤ l.foldl (fun a b => if a < b then b else a) acc
  | b :: l, acc, x, hx => by
    rcases List.mem_cons.mp hx with h | h
    · subst h
      refine le_trans ?_ (maxFold_le_acc l (if acc < x then x else acc))
      split <;> omega
    · exact maxFold_le_mem l _ x h

theorem maxFold_mem_or_acc : ∀ (l : List Nat) (acc : Nat),
    l.foldl (fun a b => if a < b then b else a) acc = acc ∨
      l.foldl (fun a b => if a < b then b else a) acc ∈ l
  | [], _ => Or.inl rfl
  | b :: l, acc => by
    rcases maxFold_mem_or_acc l (if acc < b then b else acc) with h | h
    · rw [List.foldl_cons, h]
      split
      · exact Or.inr (List.mem_cons_self _ _)
      · exact Or.inl rfl
    · exact Or.inr (List.mem_cons_of_mem _ h)

/-! ## Helper lemmas: lifecycle monitors -/

theorem delegateStep_ne_timedOut (n : TxNote) : delegateStep n ≠ some .timedOut := by
  rcases n with ⟨st, err⟩
  rcases err with _ | e
  · cases st <;> simp [delegateStep]
  · cases e <;> simp [delegateStep]

theorem runDelegateMonitor_timedOut_iff (D : Nat) :
    ∀ (notes : List (Nat × TxNote)), notes.Pairwise (fun a b => a.1 ≤ b.1) →
      (runDelegateMonitor D notes = .timedOut ↔
        ∀ p ∈ notes, p.1 < D → delegateStep p.2 = none)
  | [], _ => by simp [runDelegateMonitor]
  | (t, n) :: rest, hp => by
    rcases List.pairwise_cons.mp hp with ⟨hhead, htail⟩
    rw [runDelegateMonitor]
    rcases Nat.lt_or_ge t D with ht | ht
    · rw [if_neg (by omega)]
      rcases hs : delegateStep n with _ | o
      · rw [runDelegateMonitor_timedOut_iff D rest htail]
        constructor
        · intro h p hp hlt
          rcases List.mem_cons.mp hp with rfl | hmem
          · exact hs
          · exact h p hmem hlt
        · intro h p hp hlt
          exact h p (List.mem_cons_of_mem _ hp) hlt
      · constructor
        · intro h
          exact absurd (h ▸ hs) (delegateStep_ne_timedOut n)
        · intro h
          exact absurd hs (by simp [h (t, n) (List.mem_cons_self _ _) ht])
    · rw [if_pos ht]
      constructor
      · intro _ p hp hlt
        rcases List.mem_cons.mp hp with rfl | hmem
        · omega
        · exact absurd hlt (by have := hhead p hmem; omega)
      · intro _
        rfl

theorem runDelegateMonitor_settles (D : Nat) :
    ∀ (pre : List (Nat × TxNote)) (t : Nat) (n : TxNote) (post : List (Nat × TxNote)) (o : TxOutcome),
      (pre ++ (t, n) :: post).Pairwise (fun a b => a.1 ≤ b.1) →
      (∀ p ∈ pre, delegateStep p.2 = none) →
      t < D →
      delegateStep n = some o →
      runDelegateMonitor D (pre ++ (t, n) :: post) = o
  | [], t, n, post, o, _, _, ht, hn => by
    rw [List.nil_append, runDelegateMonitor, if_neg (by omega), hn]
  | (t', n') :: pre, t, n, post, o, hp, hpre, ht, hn => by
    rcases List.pairwise_cons.mp hp with ⟨hhead, htail⟩
    have ht' : t' < D := by
      have := hhead (t, n) (by simp)
      omega
    rw [List.cons_append, runDelegateMonitor, if_neg (by omega),
      hpre (t', n') (List.mem_cons_self _ _)]
    exact runDelegateMonitor_settles D pre t n post o htail
      (fun p hp => hpre p (List.mem_cons_of_mem _ hp)) ht hn

theorem runCleanupMonitor_ne_ok :
    ∀ (notes : List TxNote) (s e d : String),
      (∀ n ∈ notes, n.status = .finalized → n.dispatchError = some (.moduleErr s e d)) →
      runCleanupMonitor notes ≠ some .finalizedOk
  | [], _, _, _, _ => by simp [runCleanupMonitor] at *
  | n :: rest, s, e, d, h => by
    rw [runCleanupMonitor]
    rcases hst : n.status with _ | _ | _ | _ | _ | _ <;>
      simp only [cleanupStep, hst]
    case finalized =>
      rw [h n (List.mem_cons_self _ _) hst]
      simp
    all_goals
      exact runCleanupMonitor_ne_ok rest s e d fun m hm => h m (List.mem_cons_of_mem _ hm)

theorem runCleanupMonitor_fails :
    ∀ (notes : List TxNote) (s e d : String),
      (∀ n ∈ notes, n.status = .finalized → n.dispatchError = some (.moduleErr s e d)) →
      (∃ n ∈ notes, n.status = .finalized) →
      runCleanupMonitor notes = some (.dispatchFailed s e d)
  | [], _, _, _, _, hex => by simp at hex
  | n :: rest, s, e, d, h, hex => by
    rw [runCleanupMonitor]
    rcases hst : n.status with _ | _ | _ | _ | _ | _ <;>
      simp only [cleanupStep, hst]
    case finalized => rw [h n (List.mem_cons_self _ _) hst]
    all_goals
      refine runCleanupMonitor_fails rest s e d
        (fun m hm => h m (List.mem_cons_of_mem _ hm)) ?_
    all_goals
      rcases hex with ⟨m, hm, hfin⟩
      rcases List.mem_cons.mp hm with rfl | hmem
      · rw [hst] at hfin
        exact absurd hfin (by simp)
      · exact ⟨m, hmem, hfin⟩

/-! ## Helper lemmas: `trackData` map construction -/

theorem addVote_absent (m : TrackMap) (v : VoteRec)
    (h : ∀ p ∈ m, p.1 ≠ v.trackId) :
    addVote m v = m ++ [(v.trackId, ⟨false, [v.refIndex]⟩)] := by
  have hany : ¬(m.any fun p => p.1 = v.trackId) = true := by
    simp only [List.any_eq_true, decide_eq_true_eq]
    rintro ⟨p, hp, hk⟩
    exact h p hp hk
  rw [addVote, ensureKey, if_neg hany]
  rw [mapUpdate, List.map_append]
  congr 1
  · exact (List.map_congr_left fun p hp => if_neg (h p hp)).trans (List.map_id m)
  · simp

theorem addVote_last (m₀ : TrackMap) (t : Nat) (fl : Bool) (rs : List Nat) (v : VoteRec)
    (hv : v.trackId = t) (h : ∀ p ∈ m₀, p.1 ≠ t) :
    addVote (m₀ ++ [(t, ⟨fl, rs⟩)]) v = m₀ ++ [(t, ⟨fl, rs ++ [v.refIndex]⟩)] := by
  subst hv
  rw [addVote, ensureKey, if_pos (by simp)]
  rw [mapUpdate, List.map_append]
  congr 1
  · exact (List.map_congr_left fun p hp => if_neg (h p hp)).trans (List.map_id m₀)
  · simp

theorem addDelegation_absent (m : TrackMap) (d : Delegation)
    (h : ∀ p ∈ m, p.1 ≠ d.trackId) :
    addDelegation m d = m ++ [(d.trackId, ⟨true, []⟩)] := by
  have hany : ¬(m.any fun p => p.1 = d.trackId) = true := by
    simp only [List.any_eq_true, decide_eq_true_eq]
    rintro ⟨p, hp, hk⟩
    exact h p hp hk
  rw [addDelegation, ensureKey, if_neg hany]
  rw [mapUpdate, List.map_append]
  congr 1
  · exact (List.map_congr_left fun p hp => if_neg (h p hp)).trans (List.map_id m)
  · simp

theorem foldl_addDelegation : ∀ (dels : List Delegation) (m : TrackMap),
    (∀ d ∈ dels, ∀ p ∈ m, p.1 ≠ d.trackId) →
    (dels.map (fun d => d.trackId)).Nodup →
    dels.foldl addDelegation m =
      m ++ dels.map (fun d => (d.trackId, (⟨true, []⟩ : TrackData)))
  | [], m, _, _ => by simp
  | d :: dels, m, habs, hnd => by
    have habs' : ∀ d' ∈ dels,
        ∀ p ∈ m ++ [(d.trackId, (⟨true, []⟩ : TrackData))], p.1 ≠ d'.trackId := by
      intro d' hd' p hp
      rcases List.mem_append.mp hp with hpm | hpe
      · exact habs d' (List.mem_cons_of_mem _ hd') p hpm
      · rw [List.mem_singleton.mp hpe]
        simp only [List.map_cons, List.nodup_cons, List.mem_map] at hnd
        intro hEq
        exact hnd.1 ⟨d', hd', hEq.symm⟩
    have hnd' : (dels.map (fun d => d.trackId)).Nodup := by
      simp only [List.map_cons, List.nodup_cons] at hnd
      exact hnd.2
    rw [List.foldl_cons, addDelegation_absent m d (habs d (by simp)),
      foldl_addDelegation dels _ habs' hnd']
    simp

theorem foldl_addVote_run : ∀ (vs : List VoteRec) (m₀ : TrackMap) (t : Nat)
    (fl : Bool) (rs : List Nat),
    vs.Pairwise (fun a b => a.trackId ≤ b.trackId) →
    (∀ p ∈ m₀, ∀ v ∈ vs, p.1 ≠ v.trackId) →
    (∀ p ∈ m₀, p.1 ≠ t) →
    (∀ v ∈ vs, t ≤ v.trackId) →
    vs.foldl addVote (m₀ ++ [(t, ⟨fl, rs⟩)]) =
      m₀ ++ [(t, ⟨fl, rs ++ (vs.takeWhile (fun w => w.trackId == t)).map
          (fun w => w.refIndex)⟩)]
        ++ groupVotes (vs.dropWhile (fun w => w.trackId == t))
  | [], m₀, t, fl, rs, _, _, _, _ => by simp [groupVotes]
  | v :: vs, m₀, t, fl, rs, hsort, habs, ht, hle => by
    rcases List.pairwise_cons.mp hsort with ⟨hhead, htail⟩
    by_cases hvt : v.trackId = t
    · rw [List.foldl_cons, addVote_last m₀ t fl rs v hvt ht,
        foldl_addVote_run vs m₀ t fl (rs ++ [v.refIndex]) htail
          (fun p hp w hw => habs p hp w (List.mem_cons_of_mem _ hw)) ht
          (fun w hw => le_trans (hle v (by simp)) (hvt ▸ hhead w hw))]
      rw [List.takeWhile_cons, List.dropWhile_cons]
      simp [hvt]
    · have habsv : ∀ p ∈ m₀ ++ [(t, (⟨fl, rs⟩ : TrackData))], p.1 ≠ v.trackId := by
        intro p hp
        rcases List.mem_append.mp hp with hpm | hpe
        · exact habs p hpm v (by simp)
        · rw [List.mem_singleton.mp hpe]
          exact fun hEq => hvt hEq.symm
      have habs2 : ∀ p ∈ m₀ ++ [(t, (⟨fl, rs⟩ : TrackData))],
          ∀ w ∈ vs, p.1 ≠ w.trackId := by
        intro p hp w hw
        rcases List.mem_append.mp hp with hpm | hpe
        · exact habs p hpm w (List.mem_cons_of_mem _ hw)
        · rw [List.mem_singleton.mp hpe]
          have h1 : t < v.trackId :=
            lt_of_le_of_ne (hle v (by simp)) fun hEq => hvt hEq.symm
          have h2 : v.trackId ≤ w.trackId := hhead w hw
          simp only []
          omega
      rw [List.foldl_cons, addVote_absent _ v habsv]
      have hrec := foldl_addVote_run vs (m₀ ++ [(t, (⟨fl, rs⟩ : TrackData))]) v.trackId
        false [v.refIndex] htail habs2 habsv hhead
      rw [hrec]
      have hb : (v.trackId == t) = false := by simp [hvt]
      rw [List.takeWhile_cons, List.dropWhile_cons]
      simp only [hb, Bool.false_eq_true, if_false]
      simp only [groupVotes]
      simp [List.append_assoc]

theorem foldl_addVote_group : ∀ (vs : List VoteRec) (m : TrackMap),
    vs.Pairwise (fun a b => a.trackId ≤ b.trackId) →
    (∀ p ∈ m, ∀ v ∈ vs, p.1 ≠ v.trackId) →
    vs.foldl addVote m = m ++ groupVotes vs
  | [], m, _, _ => by simp [groupVotes]
  | v :: vs, m, hsort, habs => by
    rcases List.pairwise_cons.mp hsort with ⟨hhead, htail⟩
    rw [List.foldl_cons, addVote_absent m v (fun p hp => habs p hp v (by simp)),
      foldl_addVote_run vs m v.trackId false [v.refIndex] htail
        (fun p hp w hw => habs p hp w (List.mem_cons_of_mem _ hw))
        (fun p hp => habs p hp v (by simp)) hhead]
    simp only [groupVotes]
    simp [List.append_assoc]

theorem groupVotes_delegated (vs : List VoteRec) :
    ∀ p ∈ groupVotes vs, p.2.delegated = false := by
  induction vs using groupVotes.induct with
  | case1 => simp [groupVotes]
  | case2 v vs ih =>
    simp only [groupVotes]
    intro p hp
    rcases List.mem_cons.mp hp with rfl | hmem
    · rfl
    · exact ih p hmem

theorem groupVotes_flatMap (vs : List VoteRec) :
    (groupVotes vs).flatMap (fun p => p.2.votes.map (Call.removeVote p.1)) =
      vs.map (fun v => Call.removeVote v.trackId v.refIndex) := by
  induction vs using groupVotes.induct with
  | case1 => simp [groupVotes]
  | case2 v vs ih =>
    simp only [groupVotes, List.flatMap_cons]
    rw [ih]
    conv_rhs =>
      rw [show v :: vs =
        v :: (vs.takeWhile (fun w => w.trackId == v.trackId)
          ++ vs.dropWhile (fun w => w.trackId == v.trackId)) by
          rw [List.takeWhile_append_dropWhile]]
    simp only [List.map_cons, List.map_append, List.map_map]
    rw [List.cons_append]
    congr 2
    refine List.map_congr_left fun w hw => ?_
    have hwt : w.trackId = v.trackId := by
      have := List.mem_takeWhile_imp hw
      simpa using this
    simp [Function.comp, hwt]

/-! ## Helper lemmas: unlock deduplication -/

theorem unlockInsert_mem (s : List Nat) (l : PriorLock) (t : Nat) :
    t ∈ unlockInsert s l ↔ t ∈ s ∨ (l.isExpired = true ∧ l.trackId = t) := by
  rw [unlockInsert]
  by_cases he : l.isExpired = true
  · rw [if_pos he]
    by_cases hm : l.trackId ∈ s
    · rw [if_pos hm]
      constructor
      · exact fun h => Or.inl h
      · rintro (h | ⟨-, rfl⟩)
        · exact h
        · exact hm
    · rw [if_neg hm]
      rw [List.mem_append, List.mem_singleton]
      constructor
      · rintro (h | rfl)
        · exact Or.inl h
        · exact Or.inr ⟨he, rfl⟩
      · rintro (h | ⟨-, rfl⟩)
        · exact Or.inl h
        · exact Or.inr rfl
  · rw [if_neg he]
    simp [he]

theorem foldl_unlockInsert_mem : ∀ (locks : List PriorLock) (s : List Nat) (t : Nat),
    t ∈ locks.foldl unlockInsert s ↔
      t ∈ s ∨ ∃ l ∈ locks, l.isExpired = true ∧ l.trackId = t
  | [], s, t => by simp
  | l :: locks, s, t => by
    rw [List.foldl_cons, foldl_unlockInsert_mem locks (unlockInsert s l) t,
      unlockInsert_mem]
    constructor
    · rintro ((h | h) | ⟨l', hl', h⟩)
      · exact Or.inl h
      · exact Or.inr ⟨l, by simp, h⟩
      · exact Or.inr ⟨l', List.mem_cons_of_mem _ hl', h⟩
    · rintro (h | ⟨l', hl', h⟩)
      · exact Or.inl (Or.inl h)
      · rcases List.mem_cons.mp hl' with rfl | hmem
        · exact Or.inl (Or.inr h)
        · exact Or.inr ⟨l', hmem, h⟩

theorem unlockInsert_nodup (s : List Nat) (l : PriorLock) (hs : s.Nodup) :
    (unlockInsert s l).Nodup := by
  rw [unlockInsert]
  by_cases he : l.isExpired = true
  · rw [if_pos he]
    by_cases hm : l.trackId ∈ s
    · rw [if_pos hm]
      exact hs
    · rw [if_neg hm]
      simp [List.nodup_append, hs, hm]
  · rw [if_neg he]
    exact hs

theorem foldl_unlockInsert_nodup : ∀ (locks : List PriorLock) (s : List Nat),
    s.Nodup → (locks.foldl unlockInsert s).Nodup
  | [], _, hs => hs
  | l :: locks, s, hs =>
    foldl_unlockInsert_nodup locks (unlockInsert s l) (unlockInsert_nodup s l hs)

theorem foldl_unlockInsert_sorted : ∀ (locks : List PriorLock) (s : List Nat),
    s.Pairwise (· < ·) →
    (∀ a ∈ s, ∀ l ∈ locks, l.isExpired = true → a ≤ l.trackId) →
    locks.Pairwise (fun a b => a.trackId ≤ b.trackId) →
    (locks.foldl unlockInsert s).Pairwise (· < ·)
  | [], s, hs, _, _ => hs
  | l :: locks, s, hs, hbound, hsort => by
    rcases List.pairwise_cons.mp hsort with ⟨hhead, htail⟩
    rw [List.foldl_cons]
    refine foldl_unlockInsert_sorted locks (unlockInsert s l) ?_ ?_ htail
    · rw [unlockInsert]
      by_cases he : l.isExpired = true
      · rw [if_pos he]
        by_cases hm : l.trackId ∈ s
        · rw [if_pos hm]
          exact hs
        · rw [if_neg hm]
          rw [List.pairwise_append]
          refine ⟨hs, List.pairwise_singleton _ _, ?_⟩
          intro a ha b hb
          rw [List.mem_singleton.mp hb]
          exact lt_of_le_of_ne (hbound a ha l (by simp) he) fun hEq => hm (hEq ▸ ha)
      · rw [if_neg he]
        exact hs
    · intro a ha l' hl' he'
      rcases (unlockInsert_mem s l a).mp ha with hmem | ⟨hexp, hta⟩
      · exact hbound a hmem l' (List.mem_cons_of_mem _ hl') he'
      · rw [← hta]
        exact hhead l' hl'

/-! ## Helper lemmas: plan segment shapes -/

theorem mem_filterMap_undelegate {td : TrackMap} {c : Call}
    (h : c ∈ td.filterMap
      (fun p => if p.2.delegated then some (Call.undelegate p.1) else none)) :
    ∃ k, c = Call.undelegate k := by
  rcases List.mem_filterMap.mp h with ⟨p, _, hp⟩
  by_cases hd : p.2.delegated
  · rw [if_pos hd, Option.some_inj] at hp
    exact ⟨p.1, hp.symm⟩
  · rw [if_neg hd] at hp
    exact absurd hp (by simp)

theorem mem_flatMap_removeVote {td : TrackMap} {c : Call}
    (h : c ∈ td.flatMap (fun p => p.2.votes.map (Call.removeVote p.1))) :
    ∃ k r, c = Call.removeVote k r := by
  rcases List.mem_flatMap.mp h with ⟨p, _, hp⟩
  rcases List.mem_map.mp hp with ⟨r, _, hr⟩
  exact ⟨p.1, r, hr.symm⟩

theorem filterMap_undelegate_map : ∀ (dels : List Delegation),
    (dels.map (fun d => (d.trackId, (⟨true, []⟩ : TrackData)))).filterMap
      (fun p => if p.2.delegated then some (Call.undelegate p.1) else none) =
      dels.map (fun d => Call.undelegate d.trackId)
  | [] => rfl
  | d :: dels => by
    have ih := filterMap_undelegate_map dels
    simp only [List.map_cons, List.filterMap_cons, if_pos]
    rw [ih]

theorem flatMap_removeVote_nil : ∀ (dels : List Delegation),
    (dels.map (fun d => (d.trackId, (⟨true, []⟩ : TrackData)))).flatMap
      (fun p => p.2.votes.map (Call.removeVote p.1)) = []
  | [] => rfl
  | d :: dels => by
    have ih := flatMap_removeVote_nil dels
    simp only [List.map_cons, List.flatMap_cons, ih]
    rfl

/-- Full characterization of the non-unlock-only plan when the observed
arrays arrive sorted (as the claim presumes) with delegation and vote tracks
disjoint (guaranteed on-chain: `votingFor` is a single variant per track). -/
theorem buildCleanupCalls_sorted (dels : List Delegation) (votes : List VoteRec)
    (locks : List PriorLock)
    (hd : dels.Pairwise (fun a b => a.trackId < b.trackId))
    (hv : votes.Pairwise voteLexLT)
    (hdisj : ∀ d ∈ dels, ∀ v ∈ votes, d.trackId ≠ v.trackId) :
    buildCleanupCalls dels votes locks false =
      dels.map (fun d => Call.undelegate d.trackId)
        ++ votes.map (fun v => Call.removeVote v.trackId v.refIndex)
        ++ (tracksToUnlock locks).map Call.unlock := by
  have hnd : (dels.map (fun d => d.trackId)).Nodup :=
    ((List.pairwise_map.mpr hd).imp fun h => Nat.ne_of_lt h)
  have hD : dels.foldl addDelegation [] =
      dels.map (fun d => (d.trackId, (⟨true, []⟩ : TrackData))) := by
    have := foldl_addDelegation dels [] (by simp) hnd
    simpa using this
  have habs : ∀ p ∈ dels.map (fun d => (d.trackId, (⟨true, []⟩ : TrackData))),
      ∀ v ∈ votes, p.1 ≠ v.trackId := by
    intro p hp v hvm
    rcases List.mem_map.mp hp with ⟨d, hdm, rfl⟩
    exact hdisj d hdm v hvm
  have hG := foldl_addVote_group votes _
    (hv.imp fun h => by
      rcases h with h | ⟨h, -⟩
      · exact Nat.le_of_lt h
      · exact Nat.le_of_eq h) habs
  simp only [buildCleanupCalls, Bool.false_eq_true, if_false, hD, hG]
  rw [List.filterMap_append, List.flatMap_append]
  have h1 := filterMap_undelegate_map dels
  have h2 : (groupVotes votes).filterMap
      (fun p => if p.2.delegated then some (Call.undelegate p.1) else none) = [] := by
    rw [List.filterMap_eq_nil_iff]
    intro p hp
    simp [groupVotes_delegated votes p hp]
  have h3 := flatMap_removeVote_nil dels
  rw [h1, h2, h3, groupVotes_flatMap]
  simp [List.append_assoc]

/-! ## Helper lemmas: reader classification and unlock occurrences -/

theorem readEntry_priorLocks (cb : Nat) (acc : VotingInfo) (e : Nat × RawVoting) :
    ∀ lock ∈ (readEntry cb acc e).priorLocks,
      lock ∈ acc.priorLocks ∨ ∃ tid ub amt, lock = mkPriorLock cb tid ub amt := by
  rcases e with ⟨tid, rv⟩
  cases rv with
  | delegating target conviction balance =>
    intro lock hl
    exact Or.inl hl
  | casting vs prior =>
    rcases prior with _ | ⟨ub, amt⟩
    · intro lock hl
      exact Or.inl hl
    · intro lock hl
      rw [readEntry] at hl
      by_cases hg : 0 < ub ∧ amt ≠ 0
      · rw [if_pos hg] at hl
        simp only [List.mem_append, List.mem_singleton] at hl
        rcases hl with hl | rfl
        · exact Or.inl hl
        · exact Or.inr ⟨tid, ub, amt, rfl⟩
      · rw [if_neg hg] at hl
        exact Or.inl hl

theorem foldl_readEntry_priorLocks :
    ∀ (entries : List (Nat × RawVoting)) (acc : VotingInfo) (cb : Nat),
      ∀ lock ∈ (entries.foldl (readEntry cb) acc).priorLocks,
        lock ∈ acc.priorLocks ∨ ∃ tid ub amt, lock = mkPriorLock cb tid ub amt
  | [], _, _, _, hl => Or.inl hl
  | e :: entries, acc, cb, lock, hl => by
    rcases foldl_readEntry_priorLocks entries (readEntry cb acc e) cb lock hl with h | h
    · exact readEntry_priorLocks cb acc e lock h
    · exact Or.inr h

/-- Every call in any cleanup plan is an undelegate, a removeVote, or an
unlock of a track recorded in `tracksToUnlock`. -/
theorem mem_buildCleanupCalls (dels : List Delegation) (votes : List VoteRec)
    (locks : List PriorLock) (uo : Bool) :
    ∀ c ∈ buildCleanupCalls dels votes locks uo,
      (∃ k, c = Call.undelegate k) ∨ (∃ k r, c = Call.removeVote k r) ∨
        (∃ k, k ∈ tracksToUnlock locks ∧ c = Call.unlock k) := by
  intro c hc
  cases uo with
  | true =>
    simp only [buildCleanupCalls, if_pos rfl, List.nil_append] at hc
    rcases List.mem_map.mp hc with ⟨k, hk, rfl⟩
    exact Or.inr (Or.inr ⟨k, hk, rfl⟩)
  | false =>
    simp only [buildCleanupCalls, Bool.false_eq_true, if_false] at hc
    rcases List.mem_append.mp hc with hb | hu
    · rcases List.mem_append.mp hb with h1 | h2
      · exact Or.inl (mem_filterMap_undelegate h1)
      · exact Or.inr (Or.inl (mem_flatMap_removeVote h2))
    · rcases List.mem_map.mp hu with ⟨k, hk, rfl⟩
      exact Or.inr (Or.inr ⟨k, hk, rfl⟩)

theorem unlock_mem_tracksToUnlock {dels : List Delegation} {votes : List VoteRec}
    {locks : List PriorLock} {uo : Bool} {t : Nat}
    (h : Call.unlock t ∈ buildCleanupCalls dels votes locks uo) :
    t ∈ tracksToUnlock locks := by
  rcases mem_buildCleanupCalls dels votes locks uo _ h with ⟨k, hk⟩ | ⟨k, r, hk⟩ | ⟨k, hk, he⟩
  · exact absurd hk (by simp)
  · exact absurd hk (by simp)
  · rw [show k = t from by simpa using he.symm] at hk
    exact hk

theorem count_unlock_le_one (dels : List Delegation) (votes : List VoteRec)
    (locks : List PriorLock) (uo : Bool) (t : Nat) :
    (buildCleanupCalls dels votes locks uo).count (Call.unlock t) ≤ 1 := by
  have hinj : Function.Injective Call.unlock := by
    intro a b h
    injection h
  have hnd : ((tracksToUnlock locks).map Call.unlock).Nodup :=
    (foldl_unlockInsert_nodup locks [] (by simp)).map hinj
  have hcu : ((tracksToUnlock locks).map Call.unlock).count (Call.unlock t) ≤ 1 :=
    List.nodup_iff_count_le_one.mp hnd (Call.unlock t)
  cases uo with
  | true =>
    simp only [buildCleanupCalls, if_pos rfl, List.nil_append]
    exact hcu
  | false =>
    simp only [buildCleanupCalls, Bool.false_eq_true, if_false]
    rw [List.count_append, List.count_append]
    have h1 : (List.count (Call.unlock t) <| (votes.foldl addVote
        (dels.foldl addDelegation [])).filterMap
          (fun p => if p.2.delegated then some (Call.undelegate p.1) else none)) = 0 := by
      rw [List.count_eq_zero]
      intro hmem
      rcases mem_filterMap_undelegate hmem with ⟨k, hk⟩
      exact absurd hk (by simp)
    have h2 : (List.count (Call.unlock t) <| (votes.foldl addVote
        (dels.foldl addDelegation [])).flatMap
          (fun p => p.2.votes.map (Call.removeVote p.1))) = 0 := by
      rw [List.count_eq_zero]
      intro hmem
      rcases mem_flatMap_removeVote hmem with ⟨k, r, hk⟩
      exact absurd hk (by simp)
    rw [h1, h2]
    simpa using hcu

/-! ## Helper lemmas: binary64 rounding -/

theorem roundHalfEven_intCast (z : ℤ) : roundHalfEven (z : ℚ) = z := by
  rw [roundHalfEven]
  simp only [Int.floor_intCast, sub_self]
  rw [if_pos (by norm_num)]

theorem roundHalfEven_eq_of_lt (q : ℚ) (f : ℤ) (h1 : (f : ℚ) ≤ q)
    (h2 : q < f + 1) (h3 : q - f < 1 / 2) : roundHalfEven q = f := by
  have hf : ⌊q⌋ = f := Int.floor_eq_iff.mpr ⟨h1, h2⟩
  rw [roundHalfEven]
  simp only [hf]
  rw [if_pos h3]

/-- Evaluation rule for `rnd` once the binade of `q` is known. -/
theorem rnd_eval (q s : ℚ) (e : ℤ) (hq : 0 < q) (h1 : (2 : ℚ) ^ e ≤ q)
    (h2 : q < (2 : ℚ) ^ (e + 1)) (hs : (2 : ℚ) ^ ((52 : ℤ) - e) = s) :
    rnd q = (roundHalfEven (q * s) : ℚ) / s := by
  have hb : 1 < 2 := one_lt_two
  have hcast : ((2 : ℕ) : ℚ) = (2 : ℚ) := by norm_num
  have hlog : Int.log 2 q = e := by
    refine le_antisymm ?_ ?_
    · have := (Int.lt_zpow_iff_log_lt hb hq).mp (by rw [hcast]; exact h2)
      omega
    · exact (Int.zpow_le_iff_le_log hb hq).mp (by rw [hcast]; exact h1)
  rw [rnd, if_pos hq, rndPos, hlog, hs]

/-- `rnd` is exact on natural numbers below `2^53` (53-bit significand). -/
theorem rnd_natCast (m : ℕ) (h0 : 0 < m) (h53 : m < 2 ^ 53) : rnd (m : ℚ) = m := by
  have hq : (0 : ℚ) < m := by exact_mod_cast h0
  have hlog : Int.log 2 (m : ℚ) = Nat.log 2 m := Int.log_natCast 2 m
  have hle : Nat.log 2 m ≤ 52 := by
    have := Nat.log_lt_of_lt_pow (Nat.pos_iff_ne_zero.mp h0) h53
    omega
  rw [rnd, if_pos hq, rndPos, hlog]
  have hsc : (2 : ℚ) ^ ((52 : ℤ) - (Nat.log 2 m : ℤ)) =
      ((2 ^ (52 - Nat.log 2 m) : ℕ) : ℚ) := by
    rw [show (52 : ℤ) - (Nat.log 2 m : ℤ) = ((52 - Nat.log 2 m : ℕ) : ℤ) by omega,
      zpow_natCast]
    push_cast
    ring
  rw [hsc, show (m : ℚ) * ((2 ^ (52 - Nat.log 2 m) : ℕ) : ℚ) =
      (((m * 2 ^ (52 - Nat.log 2 m) : ℕ) : ℤ) : ℚ) by push_cast; ring,
    roundHalfEven_intCast]
  push_cast
  rw [mul_div_assoc, div_self (by positivity), mul_one]

/-! ## Claim theorems -/

/-- C1: a submission whose in-block notification carries an `ExtrinsicFailed`
module error resolves to `DispatchFailed` with the decoded
`(section, name, docs)` triple and never to success, even when a later
notification reports `Finalized`. In `delegate.js` the promise rejects at the
in-block notification (first settle wins); in `governance-cleanup.js` the
error is inspected at the `Finalized` notification, which (polkadot-js derives
`dispatchError` from the block's events) carries the same module error, so the
submission still resolves to the decoded failure and never to success. -/
theorem c1_dispatch_failed_never_success :
    (∀ (pre post : List (Nat × TxNote)) (t : Nat) (n : TxNote) (s e d : String),
      (pre ++ (t, n) :: post).Pairwise (fun a b => a.1 ≤ b.1) →
      (∀ p ∈ pre, delegateStep p.2 = none) →
      t < TIMEOUT_MS →
      n.status = .inBlock →
      n.dispatchError = some (.moduleErr s e d) →
      runDelegateMonitor TIMEOUT_MS (pre ++ (t, n) :: post) = .dispatchFailed s e d ∧
        runDelegateMonitor TIMEOUT_MS (pre ++ (t, n) :: post) ≠ .finalizedOk) ∧
    (∀ (notes : List TxNote) (s e d : String),
      (∀ m ∈ notes, m.status = .finalized → m.dispatchError = some (.moduleErr s e d)) →
      runCleanupMonitor notes ≠ some .finalizedOk ∧
        ((∃ m ∈ notes, m.status = .finalized) →
          runCleanupMonitor notes = some (.dispatchFailed s e d))) := by
  constructor
  · intro pre post t n s e d hp hpre ht _ herr
    have hstep : delegateStep n = some (.dispatchFailed s e d) := by
      simp [delegateStep, herr]
    have := runDelegateMonitor_settles TIMEOUT_MS pre t n post _ hp hpre ht hstep
    exact ⟨this, by simp [this]⟩
  · intro notes s e d h
    exact ⟨runCleanupMonitor_ne_ok notes s e d h, runCleanupMonitor_fails notes s e d h⟩

/-- Witness for C1: an in-block `proxy.NotProxy` failure at 5000 ms followed
by a `Finalized` notification at 12000 ms resolves to the decoded failure. -/
theorem c1_witness :
    runDelegateMonitor TIMEOUT_MS
        [(5000, ⟨.inBlock, some (.moduleErr "proxy" "NotProxy" "Sender is not proxy")⟩),
         (12000, ⟨.finalized, some (.moduleErr "proxy" "NotProxy" "Sender is not proxy")⟩)] =
      .dispatchFailed "proxy" "NotProxy" "Sender is not proxy" :=
  (c1_dispatch_failed_never_success.1 []
    [(12000, ⟨.finalized, some (.moduleErr "proxy" "NotProxy" "Sender is not proxy")⟩)]
    5000 ⟨.inBlock, some (.moduleErr "proxy" "NotProxy" "Sender is not proxy")⟩
    "proxy" "NotProxy" "Sender is not proxy"
    (by simp [TIMEOUT_MS]) (by simp) (by simp [TIMEOUT_MS]) rfl rfl).1

/-- C2 counterexample: the claim asserts a 120-unit deadline timer for *every*
submission, but `governance-cleanup.js` submissions have none: a submission
that receives only an `InBlock` notification and then silence never resolves
at all — in particular it does not resolve `TimedOut` although no terminal
status ever arrives within any deadline. -/
theorem c2_counterexample :
    runCleanupMonitor [⟨.inBlock, none⟩] = none ∧
      (none : Option TxOutcome) ≠ some .timedOut := by
  exact ⟨rfl, by simp⟩

/-- C2 as amended: in the `delegate.js` submitter, the deadline is
120 units of 1000 ms, a submission resolves `TimedOut` iff no notification
arriving strictly before the deadline settles it, and a `Finalized`
notification arriving strictly before the deadline (after only non-settling
notifications) resolves the submission to `Finalized`, not `TimedOut`.
The `governance-cleanup.js` submitter starts no timer and can resolve only on
a received `Finalized` notification. -/
theorem c2_deadline_monitor :
    TIMEOUT_MS = 120 * 1000 ∧
    (∀ (notes : List (Nat × TxNote)), notes.Pairwise (fun a b => a.1 ≤ b.1) →
      (runDelegateMonitor TIMEOUT_MS notes = .timedOut ↔
        ∀ p ∈ notes, p.1 < TIMEOUT_MS → delegateStep p.2 = none)) ∧
    (∀ (pre post : List (Nat × TxNote)) (t : Nat),
      (pre ++ (t, ⟨.finalized, none⟩) :: post).Pairwise (fun a b => a.1 ≤ b.1) →
      (∀ p ∈ pre, delegateStep p.2 = none) →
      t < TIMEOUT_MS →
      runDelegateMonitor TIMEOUT_MS (pre ++ (t, ⟨.finalized, none⟩) :: post) = .finalizedOk) := by
  refine ⟨rfl, fun notes hp => runDelegateMonitor_timedOut_iff TIMEOUT_MS notes hp, ?_⟩
  intro pre post t hp hpre ht
  exact runDelegateMonitor_settles TIMEOUT_MS pre t ⟨.finalized, none⟩ post _ hp hpre ht rfl

/-- Witness for C2: a submission that is in block at 10000 ms and finalized at
30000 ms resolves `Finalized`, and a submission with no settling notification
before the deadline resolves `TimedOut`. -/
theorem c2_witness :
    runDelegateMonitor TIMEOUT_MS
        [(10000, ⟨.inBlock, none⟩), (30000, ⟨.finalized, none⟩)] = .finalizedOk ∧
    runDelegateMonitor TIMEOUT_MS [(10000, ⟨.inBlock, none⟩)] = .timedOut := by
  constructor
  · exact c2_deadline_monitor.2.2 [(10000, ⟨.inBlock, none⟩)] [] 30000
      (by simp [TIMEOUT_MS]) (by simp [delegateStep]) (by simp [TIMEOUT_MS])
  · exact (c2_deadline_monitor.2.1 [(10000, ⟨.inBlock, none⟩)] (by simp)).mpr
      (by simp [delegateStep, TIMEOUT_MS])

/-- C3 counterexample: in `governance-cleanup.js` a failed chunk is rethrown,
so with two chunks whose first fails, the second is never submitted (only one
recorded outcome), the loop escapes by throw and the process exits 1, not 0. -/
theorem c3_counterexample :
    cleanupBatchLoop [.dispatchFailed "proxy" "NotProxy" "", .finalizedOk] =
        ([.dispatchFailed "proxy" "NotProxy" ""], true) ∧
      cleanupExitCode true = 1 ∧ (1 : Nat) ≠ 0 :=
  ⟨rfl, rfl, by simp⟩

/-- C3 as amended: the `delegate.js` batch loop records every chunk's terminal
outcome and always proceeds to the next chunk (no plan-wide abort), and that
process exits 0 for a completed run even when chunk outcomes are failures; the
`governance-cleanup.js` batch loop instead rethrows a chunk failure, skipping
all remaining chunks and exiting 1. -/
theorem c3_partial_failure :
    (∀ outs : List TxOutcome, delegateBatchLoop outs = (outs, false)) ∧
    (∀ threw : Bool, delegateExitCode threw = 0) ∧
    (∀ (rest : List TxOutcome) (o : TxOutcome), o ≠ .finalizedOk →
      cleanupBatchLoop (o :: rest) = ([o], true) ∧ cleanupExitCode true = 1) := by
  refine ⟨?_, fun _ => rfl, ?_⟩
  · intro outs
    induction outs with
    | nil => rfl
    | cons o rest ih => simp [delegateBatchLoop, ih]
  · intro rest o ho
    rw [cleanupBatchLoop, if_neg ho]
    exact ⟨rfl, rfl⟩

/-- Witness for C3: a dropped first chunk aborts the cleanup loop. -/
theorem c3_witness :
    cleanupBatchLoop [.droppedTx, .finalizedOk] = ([.droppedTx], true) ∧
      cleanupExitCode true = 1 :=
  c3_partial_failure.2.2 [.finalizedOk] .droppedTx (by simp)

/-- C7: `chunkArray` splits any plan into `⌈N / k⌉` contiguous non-empty
chunks of size at most `k` whose concatenation is the original plan, and 16
operations with `maxPerBatch = 4` yield exactly 4 chunks of 4. -/
theorem c7_chunking :
    (∀ (α : Type) (l : List α) (k : Nat), 0 < k →
      (chunkArray l k).flatten = l ∧
      (∀ c ∈ chunkArray l k, c ≠ [] ∧ c.length ≤ k) ∧
      (chunkArray l k).length = (l.length + k - 1) / k) ∧
    (chunkArray (List.range 16) 4).length = 4 ∧
    (∀ c ∈ chunkArray (List.range 16) 4, c.length = 4) := by
  refine ⟨fun α l k hk => ⟨chunkArray_flatten l k hk, chunkArray_mem l k hk,
    chunkArray_length l k hk⟩, by decide, by decide⟩

/-- Witness for C7: a 5-element plan with `maxPerBatch = 2` flattens back and
has `⌈5/2⌉ = 3` chunks. -/
theorem c7_witness :
    (chunkArray [10, 20, 30, 40, 50] 2).flatten = [10, 20, 30, 40, 50] ∧
      (chunkArray [10, 20, 30, 40, 50] 2).length = (5 + 2 - 1) / 2 := by
  have h := c7_chunking.1 Nat [10, 20, 30, 40, 50] 2 (by omega)
  exact ⟨h.1, h.2.2⟩

/-- C8: with `unlockOnly = true` the whole non-unlock branch of
`buildCleanupCalls` is skipped, so every emitted operation is an `Unlock`
(zero `Undelegate`, zero `RemoveVote`), for every observed state. -/
theorem c8_unlock_only (dels : List Delegation) (votes : List VoteRec)
    (locks : List PriorLock) :
    ∀ c ∈ buildCleanupCalls dels votes locks true, ∃ t, c = Call.unlock t := by
  intro c hc
  simp only [buildCleanupCalls, if_pos rfl, List.nil_append] at hc
  rcases List.mem_map.mp hc with ⟨t, _, rfl⟩
  exact ⟨t, rfl⟩

/-- Witness for C8: a state with a delegation, a vote and an expired lock
yields, under `unlockOnly`, a plan whose single member is an unlock. -/
theorem c8_witness :
    ∃ t, Call.unlock 3 = Call.unlock t :=
  c8_unlock_only [⟨1, "tgt", "Locked1x", 5⟩] [⟨2, 7⟩] [⟨3, 100, 5, true, 0⟩]
    (Call.unlock 3) (by decide)

/-- C10: the `check-delegation.js` summary amount is the running maximum of
the per-track delegated balances — an upper bound on every balance and itself
one of the balances (or 0) — and for tracks delegating 100 and 250 it reports
250, not the sum 350. -/
theorem c10_summary_is_max :
    (∀ balances : List Nat,
      (∀ b ∈ balances, b ≤ totalDelegated balances) ∧
      (totalDelegated balances = 0 ∨ totalDelegated balances ∈ balances)) ∧
    totalDelegated [100, 250] = 250 ∧ totalDelegated [100, 250] ≠ 100 + 250 := by
  refine ⟨fun balances => ⟨fun b hb => maxFold_le_mem balances 0 b hb, ?_⟩, by decide, by decide⟩
  rcases maxFold_mem_or_acc balances 0 with h | h
  · exact Or.inl h
  · exact Or.inr h

/-- Witness for C10: every balance in a concrete list is bounded by the
reported amount. -/
theorem c10_witness : 120 ≤ totalDelegated [120, 80, 95] :=
  ((c10_summary_is_max.1 [120, 80, 95]).1) 120 (by decide)

/-- C4 counterexample: `buildCleanupCalls` never sorts — the groups follow
the order in which the chain returned the entries. With the observed
delegation array carrying track 10 before track 0, the plan's Undelegate
group is `[10, 0]`, which is not ascending by track ID. -/
theorem c4_counterexample :
    buildCleanupCalls [⟨10, "tgt", "Locked1x", 5⟩, ⟨0, "tgt", "Locked1x", 5⟩] [] [] false =
        [Call.undelegate 10, Call.undelegate 0] ∧
      ¬ ([10, 0] : List Nat).Pairwise (· < ·) := by
  constructor
  · decide
  · decide

/-- C4 as amended: for every observed state the plan is always segmented as
Undelegates, then RemoveVotes, then Unlocks; the groups mirror the order of
the observed arrays (no sorting is performed), so when the observed arrays
arrive ascending — delegations by track, votes by (track, refIndex), locks by
track, with delegation and vote tracks disjoint as on-chain state guarantees —
each group is ascending exactly as the claim states. -/
theorem c4_plan_groups_ordered :
    (∀ (dels : List Delegation) (votes : List VoteRec) (locks : List PriorLock),
      ∃ A B C, buildCleanupCalls dels votes locks false = A ++ B ++ C ∧
        (∀ a ∈ A, ∃ t, a = Call.undelegate t) ∧
        (∀ b ∈ B, ∃ t r, b = Call.removeVote t r) ∧
        (∀ c ∈ C, ∃ t, c = Call.unlock t)) ∧
    (∀ (dels : List Delegation) (votes : List VoteRec) (locks : List PriorLock),
      dels.Pairwise (fun a b => a.trackId < b.trackId) →
      votes.Pairwise voteLexLT →
      locks.Pairwise (fun a b => a.trackId ≤ b.trackId) →
      (∀ d ∈ dels, ∀ v ∈ votes, d.trackId ≠ v.trackId) →
      buildCleanupCalls dels votes locks false =
        dels.map (fun d => Call.undelegate d.trackId)
          ++ votes.map (fun v => Call.removeVote v.trackId v.refIndex)
          ++ (tracksToUnlock locks).map Call.unlock ∧
      (dels.map (fun d => d.trackId)).Pairwise (· < ·) ∧
      (votes.map (fun v => (v.trackId, v.refIndex))).Pairwise
        (fun a b => a.1 < b.1 ∨ (a.1 = b.1 ∧ a.2 < b.2)) ∧
      (tracksToUnlock locks).Pairwise (· < ·)) := by
  constructor
  · intro dels votes locks
    refine ⟨(votes.foldl addVote (dels.foldl addDelegation [])).filterMap
        (fun p => if p.2.delegated then some (Call.undelegate p.1) else none),
      (votes.foldl addVote (dels.foldl addDelegation [])).flatMap
        (fun p => p.2.votes.map (Call.removeVote p.1)),
      (tracksToUnlock locks).map Call.unlock, ?_, ?_, ?_, ?_⟩
    · simp [buildCleanupCalls]
    · exact fun a ha => mem_filterMap_undelegate ha
    · exact fun b hb => mem_flatMap_removeVote hb
    · intro c hc
      rcases List.mem_map.mp hc with ⟨k, _, rfl⟩
      exact ⟨k, rfl⟩
  · intro dels votes locks hd hv hl hdisj
    refine ⟨buildCleanupCalls_sorted dels votes locks hd hv hdisj,
      List.pairwise_map.mpr hd, ?_, ?_⟩
    · exact List.pairwise_map.mpr (hv.imp fun h => by simpa [voteLexLT] using h)
    · exact foldl_unlockInsert_sorted locks [] (by simp) (by simp) hl

/-- Witness for C4: a sorted observed state — one delegation on track 0,
votes (2,7) (2,9) (5,1), one expired lock on track 3 — yields exactly the
segmented, ascending plan. -/
theorem c4_witness :
    buildCleanupCalls [⟨0, "tgt", "Locked1x", 5⟩] [⟨2, 7⟩, ⟨2, 9⟩, ⟨5, 1⟩]
        [⟨3, 100, 4, true, 0⟩] false =
      [Call.undelegate 0, Call.removeVote 2 7, Call.removeVote 2 9,
        Call.removeVote 5 1, Call.unlock 3] := by
  have h := (c4_plan_groups_ordered.2 [⟨0, "tgt", "Locked1x", 5⟩]
    [⟨2, 7⟩, ⟨2, 9⟩, ⟨5, 1⟩] [⟨3, 100, 4, true, 0⟩]
    (by decide) (by decide) (by decide) (by decide)).1
  exact h.trans (by decide)

/-- C6: a prior lock is classified Expired exactly when
`currentBlock ≥ unlockBlock` (the boundary `currentBlock = unlockBlock` is
Expired), otherwise it is pending with `blocksRemaining =
unlockBlock - currentBlock`; every lock the reader records is classified
against the snapshot block; and for every state and either `unlockOnly`
value, the plan unlocks a track only if some recorded lock for it is Expired,
with at most one Unlock per track. -/
theorem c6_priorlock_expiry :
    (∀ currentBlock trackId unlockBlock amount : Nat,
      ((mkPriorLock currentBlock trackId unlockBlock amount).isExpired = true ↔
        unlockBlock ≤ currentBlock) ∧
      (mkPriorLock unlockBlock trackId unlockBlock amount).isExpired = true ∧
      (mkPriorLock currentBlock trackId unlockBlock amount).blocksRemaining =
        unlockBlock - currentBlock) ∧
    (∀ (entries : List (Nat × RawVoting)) (currentBlock : Nat),
      ∀ lock ∈ (getVotingInfo entries currentBlock).priorLocks,
        lock.isExpired = decide (lock.unlockBlock ≤ currentBlock)) ∧
    (∀ (dels : List Delegation) (votes : List VoteRec) (locks : List PriorLock)
      (uo : Bool) (t : Nat),
      Call.unlock t ∈ buildCleanupCalls dels votes locks uo →
        ∃ l ∈ locks, l.isExpired = true ∧ l.trackId = t) ∧
    (∀ (dels : List Delegation) (votes : List VoteRec) (locks : List PriorLock)
      (uo : Bool) (t : Nat),
      (buildCleanupCalls dels votes locks uo).count (Call.unlock t) ≤ 1) := by
  refine ⟨?_, ?_, ?_, count_unlock_le_one⟩
  · intro cb tid ub amt
    refine ⟨?_, ?_, rfl⟩
    · simp [mkPriorLock]
    · simp [mkPriorLock]
  · intro entries cb lock hl
    rcases foldl_readEntry_priorLocks entries ⟨[], [], []⟩ cb lock hl with h | ⟨tid, ub, amt, rfl⟩
    · simp at h
    · simp [mkPriorLock]
  · intro dels votes locks uo t hmem
    have ht := unlock_mem_tracksToUnlock hmem
    rcases (foldl_unlockInsert_mem locks [] t).mp ht with h | ⟨l, hl, he, rfl⟩
    · simp at h
    · exact ⟨l, hl, he, rfl⟩

/-- C5 counterexample: `delegate.js` performs no duplicate-track and no
amount validation. With the duplicated track list `[5, 5]` and the
non-positive amount `-3`, the pre-chain phase proceeds to call construction
instead of failing with a `ValidationError`, and the built plan carries the
duplicate track twice with the negative balance. -/
theorem c5_counterexample :
    delegatePreflight "kusama" [5, 5] "Locked1x" (-3) =
        DelegatePreflight.proceed [5, 5] "Locked1x" (balancePlanck (-3) 12) ∧
      buildDelegateCalls [5, 5] "target" "Locked1x" (balancePlanck (-3) 12) =
        [⟨5, "target", "Locked1x", balancePlanck (-3) 12⟩,
          ⟨5, "target", "Locked1x", balancePlanck (-3) 12⟩] ∧
      ¬ ([5, 5] : List Nat).Nodup ∧ ¬ (0 : ℚ) < -3 := by
  refine ⟨rfl, rfl, by decide, by norm_num⟩

/-- C5 as amended: before any chain interaction `delegate.js` validates only
the network name (exit) and the conviction level (exit, the
`InvalidConviction` case); any track list — duplicates included — and any
parsed amount — non-positive or fractional included — pass through into the
planned calls unchecked, one call per requested track. -/
theorem c5_validation :
    (∀ (networkName : String) (trackArgs : List Nat) (conviction : String) (amount : ℚ),
      NETWORKS networkName = none →
      delegatePreflight networkName trackArgs conviction amount =
        DelegatePreflight.invalidNetwork) ∧
    (∀ (networkName : String) (net : Network) (trackArgs : List Nat)
      (conviction : String) (amount : ℚ),
      NETWORKS networkName = some net →
      conviction ∉ CONVICTION_NAMES →
      delegatePreflight networkName trackArgs conviction amount =
        DelegatePreflight.invalidConviction) ∧
    (∀ (networkName : String) (net : Network) (trackArgs : List Nat)
      (conviction : String) (amount : ℚ),
      NETWORKS networkName = some net →
      conviction ∈ CONVICTION_NAMES →
      delegatePreflight networkName trackArgs conviction amount =
        DelegatePreflight.proceed (if trackArgs = [] then ALL_TRACKS else trackArgs)
          conviction (balancePlanck amount net.decimals)) ∧
    (∀ (tracks : List Nat) (target conviction : String) (planck : ℤ),
      (buildDelegateCalls tracks target conviction planck).length = tracks.length) := by
  refine ⟨?_, ?_, ?_, ?_⟩
  · intro nn ta cv am h
    simp only [delegatePreflight, h]
  · intro nn net ta cv am h hcv
    simp only [delegatePreflight, h]
    simp [hcv]
  · intro nn net ta cv am h hcv
    simp only [delegatePreflight, h]
    simp [hcv]
  · intro tracks target cv planck
    simp [buildDelegateCalls]

/-- Witness for C5: an out-of-range conviction is rejected before any chain
interaction. -/
theorem c5_witness :
    delegatePreflight "kusama" [] "Locked9x" 5 = DelegatePreflight.invalidConviction :=
  c5_validation.2.1 "kusama" ⟨12, 4⟩ [] "Locked9x" 5 rfl (by decide)

/-- C9 counterexample: the planck conversion runs through binary64
(`parseFloat` and a double multiplication), so the stored balance is not
always `amount × 10^decimals`: requesting `1.005` on the 10-decimal network
stores `10_049_999_999` minor units — exactly what JavaScript's
`Math.floor(1.005 * 1e10)` yields — although
`1.005 × 10^10 = 10_050_000_000`. -/
theorem c9_counterexample :
    balancePlanck (1005 / 1000 : ℚ) 10 = 10049999999 ∧
      (1005 / 1000 : ℚ) * 10 ^ 10 = 10050000000 ∧
      (10049999999 : ℤ) ≠ 10050000000 := by
  refine ⟨?_, by norm_num, by norm_num⟩
  have h10 : rnd ((10 : ℚ) ^ 10) = 10 ^ 10 := by
    have h := rnd_natCast (10 ^ 10) (by norm_num) (by norm_num)
    push_cast at h
    exact h
  have hamt : rnd (1005 / 1000 : ℚ) = 4526117625507348 / 4503599627370496 := by
    rw [rnd_eval (1005 / 1000) 4503599627370496 0 (by norm_num) (by norm_num)
      (by norm_num) (by norm_num),
      roundHalfEven_eq_of_lt _ 4526117625507348 (by norm_num) (by norm_num) (by norm_num)]
    norm_num
  have hprod : rnd ((4526117625507348 / 4503599627370496 : ℚ) * 10 ^ 10) =
      5269094399999999 / 524288 := by
    rw [rnd_eval _ 524288 33 (by norm_num) (by norm_num) (by norm_num) (by norm_num),
      roundHalfEven_eq_of_lt _ 5269094399999999 (by norm_num) (by norm_num) (by norm_num)]
    norm_num
  simp only [balancePlanck]
  rw [hamt, h10, hprod]
  exact Int.floor_eq_iff.mpr ⟨by norm_num, by norm_num⟩

/-- C9 as amended: the stored balance is
`⌊double(amount) ·₆₄ double(10^decimals)⌋` computed in binary64, so floating
point does participate in plan construction; whenever the requested amount is
a whole number of tokens with `amount × 10^decimals < 2^53` the conversion is
exact and the stored balance equals `amount × 10^decimals` — in particular
650 on a 12-decimal network stores exactly 650_000_000_000_000 minor units. -/
theorem c9_planck_exact :
    (∀ n d : ℕ, 0 < n → n * 10 ^ d < 2 ^ 53 →
      balancePlanck (n : ℚ) d = (n : ℤ) * 10 ^ d) ∧
    balancePlanck (650 : ℚ) 12 = 650000000000000 := by
  have main : ∀ n d : ℕ, 0 < n → n * 10 ^ d < 2 ^ 53 →
      balancePlanck (n : ℚ) d = (n : ℤ) * 10 ^ d := by
    intro n d h0 h
    have hp : 0 < 10 ^ d := pow_pos (by norm_num) d
    have hn53 : n < 2 ^ 53 := lt_of_le_of_lt (Nat.le_mul_of_pos_right n hp) h
    have hp53 : 10 ^ d < 2 ^ 53 := lt_of_le_of_lt (Nat.le_mul_of_pos_left _ h0) h
    have hrn := rnd_natCast n h0 hn53
    have hrp := rnd_natCast (10 ^ d) hp hp53
    have hprod := rnd_natCast (n * 10 ^ d) (Nat.mul_pos h0 hp) h
    simp only [balancePlanck]
    rw [show ((10 : ℚ) ^ d) = ((10 ^ d : ℕ) : ℚ) by push_cast; ring, hrp, hrn,
      show (n : ℚ) * ((10 ^ d : ℕ) : ℚ) = ((n * 10 ^ d : ℕ) : ℚ) by push_cast; ring,
      hprod,
      show ((n * 10 ^ d : ℕ) : ℚ) = (((n * 10 ^ d : ℕ) : ℤ) : ℚ) by push_cast; ring,
      Int.floor_intCast]
    push_cast
    ring
  refine ⟨main, ?_⟩
  have h := main 650 12 (by norm_num) (by norm_num)
  norm_num at h
  exact h

/-- Witness for C9: 25 tokens on a 4-decimal scale store exactly 250000. -/
theorem c9_witness : balancePlanck ((25 : ℕ) : ℚ) 4 = (25 : ℤ) * 10 ^ 4 :=
  c9_planck_exact.1 25 4 (by norm_num) (by norm_num)

/-- Witness for C6: the spec's worked example — a casting entry on track 0
with prior lock `(1000, 5_000_000_000_000)` read at block 1200 — produces an
Expired lock, and the resulting plan's `Unlock` comes from it. -/
theorem c6_witness :
    ∃ l ∈ (getVotingInfo [(0, .casting [] (some (1000, 5000000000000)))] 1200).priorLocks,
      l.isExpired = true ∧ l.trackId = 0 :=
  c6_priorlock_expiry.2.2.1 [] []
    (getVotingInfo [(0, .casting [] (some (1000, 5000000000000)))] 1200).priorLocks
    false 0 (by decide)

end DelegationTools
